import Mathlib

/-!
Shallow embedding of `src/fram_logger.rs` (elkel53930/fram), the FRAM-backed
circular logger: chunked I2C writes (`write_30_byte`, `write_fram`), the
append path (`write`, which also advances the global `CURSOR`), the boot-time
replay (`show_log`), and the panic handler (`fram_panic_handler`).

Modelling conventions:
* Device memory is a total function `Nat → Nat` giving the byte stored at
  each address.  Byte values are carried as `Nat`; nothing in the code does
  arithmetic on stored bytes other than comparison with `0`.
* `u16` arithmetic is `Nat` arithmetic reduced `% 65536` exactly where the
  Rust code performs `as u16` casts or `u16` addition (release semantics:
  wrapping).  `0x2000 = 8192` is the logical window size.
* The I2C bus is fallible: a `Dev` carries the memory image, a schedule
  `fails : Nat → Bool` saying whether the n-th bus transaction fails, and the
  count `tx` of transactions attempted so far.  A failed transaction leaves
  memory unchanged.  `anyhow::Result<()>` becomes a `Bool` success flag, and
  the `.unwrap()` calls in `write`/`fram_print` become the explicit
  `WriteOutcome.panicked` / `PanicOutcome.nestedPanic` outcomes.
* Loops are translated as fuel-indexed structural recursions where the fuel
  passed by the wrapper provably dominates the iteration count, so that every
  definition evaluates by kernel reduction.
* `show_log`'s `print!` output and `str::from_utf8` are modelled at the byte
  level: the replayed output is the list of byte values printed (UTF-8
  decoding validity is not modelled; all claims here are byte-for-byte).
-/

namespace Fram

/-- State of the FRAM device together with its (fallible) I2C bus: the memory
image, the failure schedule of bus transactions, and the number of
transactions attempted so far. -/
structure Dev where
  mem : Nat → Nat
  fails : Nat → Bool
  tx : Nat

/-- Write the bytes `data` to consecutive addresses starting at `a` (the
effect on device memory of one successful sequential-write transaction). -/
def writeBytes (m : Nat → Nat) (a : Nat) (data : List Nat) : Nat → Nat :=
  fun x => if a ≤ x ∧ x < a + data.length then data.getD (x - a) 0 else m x

/-- Source `write_30_byte(adrs, data)`: builds a zero-initialised 32-byte
buffer, puts the big-endian address in bytes 0..2 and `data` at bytes
2..2+len, and sends the whole 32-byte buffer in one I2C transaction.  The
device therefore receives 30 data bytes: `data` followed by zero padding.
Returns the updated device and the success flag of the transaction. -/
def write_30_byte (d : Dev) (adrs : Nat) (data : List Nat) : Dev × Bool :=
  if d.fails d.tx then ({ d with tx := d.tx + 1 }, false)
  else ({ mem := writeBytes d.mem adrs (data ++ List.replicate (30 - data.length) 0),
          fails := d.fails, tx := d.tx + 1 }, true)

/-- Fuel-indexed body of source `write_fram`'s `while i < data.len()` loop:
writes 30-byte chunks `data[i..min(i+30,len)]` at `adrs + i as u16`,
aborting at the first failed transaction.  The wrapper passes
`fuel = data.length`, which dominates the iteration count. -/
def write_framF : Nat → Dev → Nat → List Nat → Dev × Bool
  | 0, d, _, _ => (d, true)
  | _ + 1, d, _, [] => (d, true)
  | fuel + 1, d, adrs, b :: rest =>
    let r := write_30_byte d (adrs % 65536) ((b :: rest).take 30)
    if r.2 then write_framF fuel r.1 (adrs + 30) ((b :: rest).drop 30)
    else (r.1, false)

/-- Source `write_fram(adrs, data)`: chunked write of `data` at `adrs`. -/
def write_fram (d : Dev) (adrs : Nat) (data : List Nat) : Dev × Bool :=
  write_framF data.length d adrs data

/-- Trace of the chunks issued by `write_fram`'s loop: the list of
`(destination offset, chunk)` pairs, in issue order (fuel-indexed body). -/
def framChunksF : Nat → Nat → List Nat → List (Nat × List Nat)
  | 0, _, _ => []
  | _ + 1, _, [] => []
  | fuel + 1, adrs, b :: rest =>
    (adrs % 65536, (b :: rest).take 30) :: framChunksF fuel (adrs + 30) ((b :: rest).drop 30)

/-- Chunk trace of `write_fram adrs data` (all transactions succeeding). -/
def framChunks (adrs : Nat) (data : List Nat) : List (Nat × List Nat) :=
  framChunksF data.length adrs data

/-- Total number of bytes the chunked writer transfers for a payload of
length `L`: the last chunk is zero-padded to 30 bytes, so this is
`30 * ceil(L / 30)`. -/
def span (L : Nat) : Nat := 30 * ((L + 29) / 30)

/-- Fuel-indexed body of source `write`'s `while CURSOR > 0x2000` loop. -/
def reduceWindowF : Nat → Nat → Nat
  | 0, c => c
  | f + 1, c => if 8192 < c then reduceWindowF f (c - 8192) else c

/-- The cursor reduction loop `while CURSOR > 0x2000 { CURSOR -= 0x2000 }`;
fuel `c` dominates the iteration count. -/
def reduceWindow (c : Nat) : Nat := reduceWindowF c c

/-- Cursor update performed by source `write`:
`CURSOR += s.len() as u16` (u16 wrapping) followed by the reduction loop. -/
def advanceCursor (c len : Nat) : Nat := reduceWindow ((c + len % 65536) % 65536)

/-- Outcome of source `fn write(s: &str)`: either it returns `Ok(())` with
the new cursor and device, or one of its `.unwrap()` calls panics; the
panicking outcome records the cursor value and device state at the panic. -/
inductive WriteOutcome where
  | ok (cursor : Nat) (dev : Dev)
  | panicked (cursor : Nat) (dev : Dev)

/-- Whether a `write` outcome is the panicking one. -/
def WriteOutcome.isPanicked : WriteOutcome → Bool
  | .panicked _ _ => true
  | .ok _ _ => false

/-- Cursor value carried by a `write` outcome. -/
def WriteOutcome.cur : WriteOutcome → Nat
  | .ok c _ => c
  | .panicked c _ => c

/-- Device state carried by a `write` outcome. -/
def WriteOutcome.dev : WriteOutcome → Dev
  | .ok _ d => d
  | .panicked _ d => d

/-- Source `fn write(s: &str) -> fmt::Result` given cursor `c` and device
`d`: `write_fram(CURSOR, s.as_bytes()).unwrap()`, then the cursor update,
then `write_fram(CURSOR, b"\0").unwrap()`. -/
def write (c : Nat) (d : Dev) (t : List Nat) : WriteOutcome :=
  let r1 := write_fram d c t
  if r1.2 then
    let c1 := advanceCursor c t.length
    let r2 := write_fram r1.1 c1 [0]
    if r2.2 then .ok c1 r2.1 else .panicked c1 r2.1
  else .panicked c r1.1

/-- The 32-byte block `read_fram(adrs, &mut buffer)` fills when reading at
address `a` (sequential read of 32 bytes). -/
def blockAt (m : Nat → Nat) (a : Nat) : List Nat := (List.range 32).map fun k => m (a + k)

/-- The bytes `show_log` prints from one block: the scan increments `size`
and then tests `b == 0`, so the printed slice `buffer[0..size]` runs up to
and including the first zero byte (or the whole block if none). -/
def emitBlock : List Nat → List Nat
  | [] => []
  | b :: r => if b = 0 then [b] else b :: emitBlock r

/-- Whether `c` is a UTF-8 continuation byte (`0x80..=0xBF`). -/
def isCont (c : Nat) : Bool := decide (128 ≤ c ∧ c ≤ 191)

/-- Admissible range of the byte following a multi-byte lead byte `b`, per
the UTF-8 validation `core::str::from_utf8` performs: `0xE0`, `0xED`,
`0xF0` and `0xF4` restrict their second byte (overlongs/surrogates/planes),
every other lead accepts any continuation byte. -/
def validB2 (b c1 : Nat) : Bool :=
  if b = 224 then decide (160 ≤ c1 ∧ c1 ≤ 191)
  else if b = 237 then decide (128 ≤ c1 ∧ c1 ≤ 159)
  else if b = 240 then decide (144 ≤ c1 ∧ c1 ≤ 191)
  else if b = 244 then decide (128 ≤ c1 ∧ c1 ≤ 143)
  else isCont c1

/-- One step of the check `std::str::from_utf8` applies to a byte slice:
given the first byte `b` and the remaining bytes, consume one well-formed
UTF-8 character and return the bytes after it, or fail.  ASCII bytes stand
alone, `0xC2..=0xDF` lead a 2-byte sequence, `0xE0..=0xEF` a 3-byte
sequence and `0xF0..=0xF4` a 4-byte sequence (with the second-byte ranges
of `validB2`); bare continuation bytes, overlong leads `0xC0`/`0xC1` and
leads above `0xF4` are invalid, as is a sequence truncated by the end of
the slice. -/
def utf8Step (b : Nat) (rest : List Nat) : Option (List Nat) :=
  if b ≤ 127 then some rest
  else if b ≤ 193 then none
  else if b ≤ 223 then
    match rest with
    | c1 :: r => if isCont c1 then some r else none
    | [] => none
  else if b ≤ 239 then
    match rest with
    | c1 :: c2 :: r => if validB2 b c1 && isCont c2 then some r else none
    | _ => none
  else if b ≤ 244 then
    match rest with
    | c1 :: c2 :: c3 :: r => if validB2 b c1 && isCont c2 && isCont c3 then some r else none
    | _ => none
  else none

/-- Fuel-indexed body of the `from_utf8` validation loop: consume characters
via `utf8Step` until the slice is exhausted (valid) or a step fails
(invalid).  Each character consumes at least one byte, so the wrapper's
fuel `l.length` dominates the iteration count. -/
def utf8ValidF : Nat → List Nat → Bool
  | _, [] => true
  | 0, _ :: _ => false
  | fuel + 1, b :: rest =>
    match utf8Step b rest with
    | some r => utf8ValidF fuel r
    | none => false

/-- Whether `std::str::from_utf8` accepts the byte slice `l`. -/
def utf8Valid (l : List Nat) : Bool := utf8ValidF l.length l

/-- Source `read_fram(adrs, &mut buffer)` on the fallible bus: one I2C write
transaction carrying the address, then one read transaction filling the
32-byte buffer; either transaction may fail, in which case the error is
returned (`show_log` then panics on its `.unwrap()`). -/
def read_fram (d : Dev) (adrs : Nat) : Option (Dev × List Nat) :=
  if d.fails d.tx then none
  else if d.fails (d.tx + 1) then none
  else some ({ d with tx := d.tx + 2 }, blockAt d.mem adrs)

/-- How one invocation of source `show_log` can end: the `while flag` loop
exits normally after finding a terminator (`done`, with the bytes printed),
or one of its `.unwrap()` calls — on `read_fram`'s result or on
`str::from_utf8` of the scanned slice — panics mid-replay (`panicked`,
with the bytes printed before the panic). -/
inductive ReplayEnd where
  | done (out : List Nat)
  | panicked (out : List Nat)
deriving DecidableEq

/-- Prefix the bytes printed by earlier loop iterations onto an outcome. -/
def ReplayEnd.prepend (pre : List Nat) : ReplayEnd → ReplayEnd
  | .done out => .done (pre ++ out)
  | .panicked out => .panicked (pre ++ out)

/-- Fuel-indexed body of source `show_log`'s `while flag` loop, starting at
address `adrs`: `read_fram(adrs, &mut buffer).unwrap()` (a failed read
panics), `adrs += 32` (u16 wrap), scan for the terminator, then
`from_utf8(&buffer[0..size]).unwrap()` — the scanned slice must be valid
standalone UTF-8 or the unwrap panics before anything of this block is
printed — then print and loop while no terminator was seen.  `none` means
the loop is still running after `fuel` iterations (the source loop is
unbounded; termination is part of claim C10). -/
def show_logF : Dev → Nat → Nat → Option ReplayEnd
  | _, _, 0 => none
  | d, adrs, fuel + 1 =>
    match read_fram d adrs with
    | none => some (.panicked [])
    | some (d2, blk) =>
      if utf8Valid (emitBlock blk) then
        if 0 ∈ blk then some (.done (emitBlock blk))
        else (show_logF d2 ((adrs + 32) % 65536) fuel).map (ReplayEnd.prepend (emitBlock blk))
      else some (.panicked [])

/-- Source `show_log()` on device `d`: how the replay loop ends and the
bytes printed between the banner lines, if it ends within `fuel` blocks. -/
def show_log (d : Dev) (fuel : Nat) : Option ReplayEnd :=
  show_logF d 0 fuel

/-- Outcome of source `fram_panic_handler`: it either reaches the final
`loop { delay_ms(1000) }` (halts, never returns), or one of the `.unwrap()`
calls inside `fram_print` panics first (a nested panic inside the hook). -/
inductive PanicOutcome where
  | halted (cursor : Nat) (dev : Dev)
  | nestedPanic (cursor : Nat) (dev : Dev)

/-- Whether the panic handler reached its halt loop. -/
def PanicOutcome.isHalted : PanicOutcome → Bool
  | .halted _ _ => true
  | .nestedPanic _ _ => false

/-- Source `fram_panic_handler(info)`: appends the location line (or the
fixed fallback line) via `fprintln!`, then the panic-info line, then enters
the halt loop.  `line1`/`line2` are the byte contents of the two formatted
diagnostic lines (formatting itself is out of scope); `fprintln!` appends a
newline (byte 10) and goes through `write`, whose `.unwrap()` panics if the
underlying store write fails.  The console `println!` mirrors are
side-effect-free in this model. -/
def fram_panic_handler (c : Nat) (d : Dev) (line1 line2 : List Nat) : PanicOutcome :=
  match write c d (line1 ++ [10]) with
  | .panicked c' d' => .nestedPanic c' d'
  | .ok c1 d1 =>
    match write c1 d1 (line2 ++ [10]) with
    | .panicked c' d' => .nestedPanic c' d'
    | .ok c2 d2 => .halted c2 d2

/-- A device whose memory initially holds `1` everywhere and whose bus never
fails (used to instantiate concrete scenarios). -/
def devOnes : Dev := { mem := fun _ => 1, fails := fun _ => false, tx := 0 }

/-- A device whose bus fails every transaction (used to exercise the
store-write failure paths). -/
def devAllFail : Dev := { mem := fun _ => 1, fails := fun _ => true, tx := 0 }

/-- Memory holding `65` at addresses 0 and 1 and `0` everywhere above (a
two-byte log `"AA"` already terminated), for concrete replay runs. -/
def memAA : Nat → Nat := fun a => if a < 2 then 65 else 0

/-- Memory holding `65` at address 0 only (a one-byte terminated log). -/
def memA : Nat → Nat := fun a => if a = 0 then 65 else 0

/-- Memory with no zero byte anywhere in the logical window `[0, 8192)`; its
first zero byte sits at address `9000`, past the window boundary. -/
def memLate : Nat → Nat := fun a => if a < 9000 then 1 else 0

/-- Device holding `memA` behind a never-failing bus. -/
def devA : Dev := { mem := memA, fails := fun _ => false, tx := 0 }

/-- Device holding `memAA` behind a never-failing bus. -/
def devAA : Dev := { mem := memAA, fails := fun _ => false, tx := 0 }

/-- Device holding `memLate` behind a never-failing bus. -/
def devLate : Dev := { mem := memLate, fails := fun _ => false, tx := 0 }

/-- Device whose memory holds the byte `0xC3` (a UTF-8 lead byte) at every
address, behind a never-failing bus: no zero byte exists anywhere, and the
very first 32-byte block fails UTF-8 validation. -/
def devC3 : Dev := { mem := fun _ => 195, fails := fun _ => false, tx := 0 }

/-- Device storing a terminated log whose text is 31 ASCII bytes followed by
the two-byte UTF-8 character `0xC3 0xA9`: the stored text is valid UTF-8 as
a whole, but the character straddles the 32-byte block boundary, so the
first block's slice ends with a bare lead byte. -/
def devStraddle : Dev :=
  { mem := fun a => if a < 31 then 65 else if a = 31 then 195 else if a = 32 then 169 else 0,
    fails := fun _ => false, tx := 0 }

theorem span_le (L : Nat) : span L ≤ L + 29 := by
  have h := Nat.div_mul_le_self (L + 29) 30
  calc span L = (L + 29) / 30 * 30 := by rw [span, Nat.mul_comm]
  _ ≤ L + 29 := h

theorem le_span (L : Nat) : L ≤ span L := by
  have h1 := Nat.div_add_mod (L + 29) 30
  have h2 : (L + 29) % 30 < 30 := Nat.mod_lt _ (by omega)
  rw [span]; omega

theorem span_lb {L : Nat} (h : 1 ≤ L) : 30 ≤ span L := by
  have := le_span L
  have h30 : span L % 30 = 0 := by rw [span]; omega
  omega

theorem span_zero : span 0 = 0 := rfl

theorem span_succ {L : Nat} (h : 1 ≤ L) : span L = 30 + span (L - 30) := by
  rcases Nat.lt_or_ge 30 L with hgt | hle
  · have e : L + 29 = (L - 30 + 29) + 30 := by omega
    rw [span, e, Nat.add_div_right _ (by omega), span]
    ring
  · have e1 : (L + 29) / 30 = 1 := Nat.div_eq_of_lt_le (by omega) (by omega)
    have e2 : L - 30 = 0 := by omega
    rw [span, e1, e2, span_zero]

theorem reduceWindowF_le (f c : Nat) (h : c ≤ 8192) : reduceWindowF f c = c := by
  cases f with
  | zero => rfl
  | succ f => rw [reduceWindowF, if_neg (by omega)]

theorem advanceCursor_small {c L : Nat} (h : c + L ≤ 8192) : advanceCursor c L = c + L := by
  have h1 : L % 65536 = L := Nat.mod_eq_of_lt (by omega)
  have h2 : (c + L) % 65536 = c + L := Nat.mod_eq_of_lt (by omega)
  rw [advanceCursor, h1, h2, reduceWindow, reduceWindowF_le _ _ (by omega)]

theorem pad_length {data : List Nat} (h : data.length ≤ 30) :
    (data ++ List.replicate (30 - data.length) 0).length = 30 := by
  simp only [List.length_append, List.length_replicate]
  omega

theorem getD_pad {data : List Nat} (i : Nat) :
    (data ++ List.replicate (30 - data.length) 0).getD i 0 = data.getD i 0 := by
  rcases Nat.lt_or_ge i data.length with h | h
  · exact List.getD_append _ _ _ _ h
  · have hr : (List.replicate (30 - data.length) (0 : Nat)).getD (i - data.length) 0 = 0 := by
      rcases Nat.lt_or_ge (i - data.length) (30 - data.length) with h2 | h2
      · rw [List.getD_eq_getElem _ _ (by simpa using h2)]
        simp
      · exact List.getD_eq_default _ _ (by simpa using h2)
    rw [List.getD_append_right _ _ _ _ h, hr, List.getD_eq_default _ _ h]

theorem getD_take_lt {l : List Nat} {k i : Nat} (hi : i < k) :
    (l.take k).getD i 0 = l.getD i 0 := by
  rcases Nat.lt_or_ge i l.length with h | h
  · have h1 : i < (l.take k).length := by
      simp only [List.length_take]
      omega
    rw [List.getD_eq_getElem _ _ h1, List.getD_eq_getElem _ _ h]
    simp
  · rw [List.getD_eq_default _ _ h, List.getD_eq_default _ _ (by simp only [List.length_take]; omega)]

theorem getD_drop_add (l : List Nat) (k i : Nat) :
    (l.drop k).getD i 0 = l.getD (k + i) 0 := by
  rcases Nat.lt_or_ge i (l.drop k).length with h | h
  · have h2 : k + i < l.length := by
      simp only [List.length_drop] at h
      omega
    rw [List.getD_eq_getElem _ _ h, List.getD_eq_getElem _ _ h2]
    simp
  · have h2 : l.length ≤ k + i := by
      simp only [List.length_drop] at h
      omega
    rw [List.getD_eq_default _ _ h, List.getD_eq_default _ _ h2]

theorem write_framF_cons (fuel : Nat) (d : Dev) (a : Nat) (b : Nat) (rest : List Nat)
    (hfail : d.fails d.tx = false) :
    write_framF (fuel + 1) d a (b :: rest) =
      write_framF fuel
        { mem := writeBytes d.mem (a % 65536)
            ((b :: rest).take 30 ++ List.replicate (30 - ((b :: rest).take 30).length) 0),
          fails := d.fails, tx := d.tx + 1 }
        (a + 30) ((b :: rest).drop 30) := by
  simp [write_framF, write_30_byte, hfail]

theorem write_framF_spec (fuel : Nat) : ∀ (d : Dev) (a : Nat) (data : List Nat),
    data.length ≤ fuel → (∀ n, d.fails n = false) → a + span data.length ≤ 65536 →
    (write_framF fuel d a data).2 = true ∧
    (write_framF fuel d a data).1.fails = d.fails ∧
    ∀ x, (write_framF fuel d a data).1.mem x =
      if a ≤ x ∧ x < a + data.length then data.getD (x - a) 0
      else if a ≤ x ∧ x < a + span data.length then 0
      else d.mem x := by
  induction fuel with
  | zero =>
    intro d a data hfuel hf ha
    have hd : data = [] := by
      cases data with
      | nil => rfl
      | cons b r => simp at hfuel
    subst hd
    refine ⟨rfl, rfl, fun x => ?_⟩
    have hc : ¬(a ≤ x ∧ x < a + ([] : List Nat).length) := by
      simp only [List.length_nil]
      omega
    rw [write_framF, if_neg hc, if_neg (by simp only [List.length_nil, span_zero] at hc ⊢; omega)]
  | succ fuel ih =>
    intro d a data hfuel hf ha
    match data with
    | [] =>
      refine ⟨rfl, rfl, fun x => ?_⟩
      have hc : ¬(a ≤ x ∧ x < a + ([] : List Nat).length) := by
        simp only [List.length_nil]
        omega
      rw [write_framF, if_neg hc, if_neg (by simp only [List.length_nil, span_zero] at hc ⊢; omega)]
    | b :: rest =>
      have hL1 : 1 ≤ (b :: rest).length := by simp
      have hspan := span_succ hL1
      have ha65 : a < 65536 := by
        have := span_lb hL1
        omega
      have hmod : a % 65536 = a := Nat.mod_eq_of_lt ha65
      have hfail : d.fails d.tx = false := hf d.tx
      have htakelen : ((b :: rest).take 30).length ≤ 30 := by
        rw [List.length_take]
        omega
      have hpadlen :
          ((b :: rest).take 30 ++ List.replicate (30 - ((b :: rest).take 30).length) 0).length
            = 30 := by
        apply pad_length
        omega
      have hdroplen : ((b :: rest).drop 30).length = (b :: rest).length - 30 := by
        simp [List.length_drop]
      rw [write_framF_cons fuel d a b rest hfail, hmod]
      obtain ⟨hflag, hfails, hmem⟩ :=
        ih { mem := writeBytes d.mem a
                ((b :: rest).take 30 ++ List.replicate (30 - ((b :: rest).take 30).length) 0),
             fails := d.fails, tx := d.tx + 1 }
          (a + 30) ((b :: rest).drop 30)
          (by rw [hdroplen]; omega) hf (by rw [hdroplen]; omega)
      refine ⟨hflag, hfails, fun x => ?_⟩
      rw [hmem x]
      simp only [hdroplen, writeBytes, hpadlen]
      rcases Nat.lt_or_ge x a with hA | hA
      · rw [if_neg (by omega), if_neg (by omega), if_neg (by omega),
            if_neg (by omega), if_neg (by omega)]
      rcases Nat.lt_or_ge x (a + 30) with hB | hB
      · rw [if_neg (by omega), if_neg (by omega), if_pos (by omega), getD_pad,
            getD_take_lt (by omega)]
        rcases Nat.lt_or_ge x (a + (b :: rest).length) with hC | hC
        · rw [if_pos (by omega)]
        · rw [if_neg (by omega), if_pos (by omega), List.getD_eq_default _ _ (by omega)]
      rcases Nat.lt_or_ge x (a + (b :: rest).length) with hC | hC
      · rw [if_pos (by omega), if_pos (by omega), getD_drop_add]
        congr 1
        omega
      rcases Nat.lt_or_ge x (a + span (b :: rest).length) with hD | hD
      · rw [if_neg (by omega), if_pos (by omega), if_neg (by omega), if_pos (by omega)]
      · have hsp := le_span (b :: rest).length
        rw [if_neg (by omega), if_neg (by omega), if_neg (by omega),
            if_neg (by omega), if_neg (by omega)]

theorem write_fram_spec (d : Dev) (a : Nat) (data : List Nat)
    (hf : ∀ n, d.fails n = false) (ha : a + span data.length ≤ 65536) :
    (write_fram d a data).2 = true ∧
    (write_fram d a data).1.fails = d.fails ∧
    ∀ x, (write_fram d a data).1.mem x =
      if a ≤ x ∧ x < a + data.length then data.getD (x - a) 0
      else if a ≤ x ∧ x < a + span data.length then 0
      else d.mem x :=
  write_framF_spec data.length d a data (Nat.le_refl _) hf ha

theorem span_one : span 1 = 30 := rfl

theorem getD_zero_singleton (i : Nat) : ([0] : List Nat).getD i 0 = 0 := by
  cases i <;> rfl

theorem write_ok (c : Nat) (d : Dev) (t : List Nat) (hf : ∀ n, d.fails n = false)
    (h1 : c + span t.length ≤ 65536) (h2 : advanceCursor c t.length + 30 ≤ 65536) :
    ∃ d', write c d t = .ok (advanceCursor c t.length) d' ∧ d'.fails = d.fails ∧
      ∀ x, d'.mem x =
        if advanceCursor c t.length ≤ x ∧ x < advanceCursor c t.length + 30 then 0
        else if c ≤ x ∧ x < c + t.length then t.getD (x - c) 0
        else if c ≤ x ∧ x < c + span t.length then 0
        else d.mem x := by
  obtain ⟨hs1, hfa1, hm1⟩ := write_fram_spec d c t hf h1
  have hf1 : ∀ n, (write_fram d c t).1.fails n = false := by
    intro n
    rw [hfa1]
    exact hf n
  obtain ⟨hs2, hfa2, hm2⟩ :=
    write_fram_spec (write_fram d c t).1 (advanceCursor c t.length) [0] hf1
      (by simp only [List.length_singleton, span_one]; omega)
  refine ⟨(write_fram (write_fram d c t).1 (advanceCursor c t.length) [0]).1, ?_, ?_, fun x => ?_⟩
  · simp only [write, hs1, hs2, if_true]
  · rw [hfa2, hfa1]
  · rw [hm2 x, hm1 x]
    simp only [List.length_singleton, span_one, getD_zero_singleton]
    split_ifs <;> first | rfl | omega

theorem emitBlock_all {l : List Nat} (h : ∀ b ∈ l, b ≠ 0) : emitBlock l = l := by
  induction l with
  | nil => rfl
  | cons b r ih =>
    rw [emitBlock, if_neg (h b (by simp)), ih fun x hx => h x (by simp [hx])]

theorem emitBlock_take {l : List Nat} : ∀ {j : Nat}, j < l.length →
    (∀ i, i < j → l.getD i 0 ≠ 0) → l.getD j 0 = 0 → emitBlock l = l.take (j + 1) := by
  induction l with
  | nil =>
    intro j hj
    simp at hj
  | cons b r ih =>
    intro j hj hne h0
    cases j with
    | zero =>
      have hb : b = 0 := by simpa using h0
      subst hb
      rw [emitBlock, if_pos rfl]
      rfl
    | succ j =>
      have hb : b ≠ 0 := by simpa using hne 0 (by omega)
      rw [emitBlock, if_neg hb, List.take_succ_cons,
        ih (by simpa using hj) (fun i hi => by simpa using hne (i + 1) (by omega))
          (by simpa using h0)]

theorem blockAt_length (m : Nat → Nat) (a : Nat) : (blockAt m a).length = 32 := by
  simp [blockAt]

theorem blockAt_getD (m : Nat → Nat) (a i : Nat) (hi : i < 32) :
    (blockAt m a).getD i 0 = m (a + i) := by
  rw [blockAt, List.getD_eq_getElem _ _ (by simpa using hi)]
  simp

theorem zero_mem_blockAt {m : Nat → Nat} {a : Nat} :
    0 ∈ blockAt m a ↔ ∃ k, k < 32 ∧ m (a + k) = 0 := by
  constructor
  · intro h
    obtain ⟨k, hk, he⟩ := List.mem_map.mp h
    exact ⟨k, List.mem_range.mp hk, he⟩
  · rintro ⟨k, hk, he⟩
    exact List.mem_map.mpr ⟨k, List.mem_range.mpr hk, he⟩

theorem utf8Step_ascii {b : Nat} (rest : List Nat) (hb : b ≤ 127) :
    utf8Step b rest = some rest := by
  rw [utf8Step.eq_def, if_pos hb]

theorem utf8ValidF_cons_ascii (fuel b : Nat) (rest : List Nat) (hb : b ≤ 127) :
    utf8ValidF (fuel + 1) (b :: rest) = utf8ValidF fuel rest := by
  rw [utf8ValidF, utf8Step_ascii rest hb]

theorem utf8ValidF_ascii : ∀ (fuel : Nat) (l : List Nat), (∀ b ∈ l, b ≤ 127) →
    l.length ≤ fuel → utf8ValidF fuel l = true := by
  intro fuel
  induction fuel with
  | zero =>
    intro l h hl
    cases l with
    | nil => rfl
    | cons b rest => simp at hl
  | succ fuel ih =>
    intro l h hl
    cases l with
    | nil => rfl
    | cons b rest =>
      rw [utf8ValidF_cons_ascii fuel b rest (h b (by simp))]
      exact ih rest (fun x hx => h x (by simp [hx])) (by simp at hl; omega)

theorem utf8Valid_ascii {l : List Nat} (h : ∀ b ∈ l, b ≤ 127) : utf8Valid l = true :=
  utf8ValidF_ascii l.length l h (Nat.le_refl _)

theorem mem_blockAt {m : Nat → Nat} {a b : Nat} (hb : b ∈ blockAt m a) :
    ∃ k, k < 32 ∧ b = m (a + k) := by
  obtain ⟨k, hk, he⟩ := List.mem_map.mp hb
  exact ⟨k, List.mem_range.mp hk, he.symm⟩

theorem mem_take_blockAt {m : Nat → Nat} {a t b : Nat}
    (hb : b ∈ (blockAt m a).take t) : ∃ k, k < t ∧ k < 32 ∧ b = m (a + k) := by
  obtain ⟨i, hi, he⟩ := List.mem_iff_getElem.mp hb
  have hi2 : i < t ∧ i < 32 := by
    rw [List.length_take, blockAt_length] at hi
    omega
  refine ⟨i, hi2.1, hi2.2, ?_⟩
  rw [← he]
  simp [blockAt]

theorem read_fram_ok {d : Dev} (hf : ∀ n, d.fails n = false) (adrs : Nat) :
    read_fram d adrs = some ({ d with tx := d.tx + 2 }, blockAt d.mem adrs) := by
  rw [read_fram, if_neg (by rw [hf d.tx]; simp), if_neg (by rw [hf (d.tx + 1)]; simp)]

theorem read_fram_elim {d : Dev} {adrs : Nat} {d2 : Dev} {blk : List Nat}
    (h : read_fram d adrs = some (d2, blk)) :
    d2.mem = d.mem ∧ d2.fails = d.fails ∧ blk = blockAt d.mem adrs := by
  rw [read_fram] at h
  split_ifs at h
  simp only [Option.some.injEq, Prod.mk.injEq] at h
  obtain ⟨h1, h2⟩ := h
  rw [← h1]
  exact ⟨rfl, rfl, h2.symm⟩

theorem show_logF_succ (d : Dev) (a fuel : Nat) :
    show_logF d a (fuel + 1) =
      match read_fram d a with
      | none => some (.panicked [])
      | some (d2, blk) =>
        if utf8Valid (emitBlock blk) then
          if 0 ∈ blk then some (.done (emitBlock blk))
          else (show_logF d2 ((a + 32) % 65536) fuel).map (ReplayEnd.prepend (emitBlock blk))
        else some (.panicked []) := by
  simp only [show_logF]

theorem show_logF_succ_ok {d : Dev} (hf : ∀ n, d.fails n = false) (a fuel : Nat) :
    show_logF d a (fuel + 1) =
      if utf8Valid (emitBlock (blockAt d.mem a)) then
        if 0 ∈ blockAt d.mem a then some (.done (emitBlock (blockAt d.mem a)))
        else (show_logF { d with tx := d.tx + 2 } ((a + 32) % 65536) fuel).map
          (ReplayEnd.prepend (emitBlock (blockAt d.mem a)))
      else some (.panicked []) := by
  rw [show_logF_succ, read_fram_ok hf]

theorem show_logF_read_fail {d : Dev} {a fuel : Nat} (hr : read_fram d a = none) :
    show_logF d a (fuel + 1) = some (.panicked []) := by
  rw [show_logF_succ, hr]

theorem show_logF_read_some {d : Dev} {a fuel : Nat} {d2 : Dev} {blk : List Nat}
    (hr : read_fram d a = some (d2, blk)) :
    show_logF d a (fuel + 1) =
      if utf8Valid (emitBlock blk) then
        if 0 ∈ blk then some (.done (emitBlock blk))
        else (show_logF d2 ((a + 32) % 65536) fuel).map (ReplayEnd.prepend (emitBlock blk))
      else some (.panicked []) := by
  rw [show_logF_succ, hr]

theorem show_logF_spec (d : Dev) (L : Nat) (hf : ∀ n, d.fails n = false)
    (hz : ∀ x, x < L → d.mem x ≠ 0) (h0 : d.mem L = 0)
    (hascii : ∀ x, x < L → d.mem x ≤ 127) :
    ∀ (fuel n : Nat) (e : Dev), e.mem = d.mem → e.fails = d.fails →
    32 * n ≤ L → L < 32 * (n + fuel) → 32 * (n + fuel) ≤ 65536 →
    show_logF e (32 * n) fuel =
      some (.done ((List.range (L + 1 - 32 * n)).map fun k => d.mem (32 * n + k))) := by
  intro fuel
  induction fuel with
  | zero =>
    intro n e hm hfa h1 h2 h3
    omega
  | succ fuel ih =>
    intro n e hm hfa h1 h2 h3
    have hfe : ∀ k, e.fails k = false := fun k => by rw [hfa]; exact hf k
    rw [show_logF_succ_ok hfe, hm]
    rcases Nat.lt_or_ge L (32 * n + 32) with hstop | hcont
    · have hmem0 : 0 ∈ blockAt d.mem (32 * n) := by
        rw [zero_mem_blockAt]
        exact ⟨L - 32 * n, by omega, by rw [show 32 * n + (L - 32 * n) = L by omega]; exact h0⟩
      have he : emitBlock (blockAt d.mem (32 * n)) =
          (blockAt d.mem (32 * n)).take (L - 32 * n + 1) :=
        emitBlock_take (by rw [blockAt_length]; omega)
          (fun i hi => by rw [blockAt_getD d.mem _ i (by omega)]; exact hz _ (by omega))
          (by rw [blockAt_getD d.mem _ _ (by omega), show 32 * n + (L - 32 * n) = L by omega]
              exact h0)
      have hval : utf8Valid (emitBlock (blockAt d.mem (32 * n))) = true := by
        rw [he]
        apply utf8Valid_ascii
        intro b hb
        obtain ⟨k, hk1, hk2, hbe⟩ := mem_take_blockAt hb
        rw [hbe]
        rcases Nat.lt_or_ge (32 * n + k) L with hx | hx
        · exact hascii _ hx
        · rw [show 32 * n + k = L by omega, h0]
          omega
      rw [if_pos hval, if_pos hmem0, he, blockAt, ← List.map_take, List.take_range,
        Nat.min_eq_left (by omega), show L - 32 * n + 1 = L + 1 - 32 * n by omega]
    · have hnot : ¬0 ∈ blockAt d.mem (32 * n) := by
        rw [zero_mem_blockAt]
        rintro ⟨k, hk, hzk⟩
        exact hz _ (by omega) hzk
      have hemit : emitBlock (blockAt d.mem (32 * n)) = blockAt d.mem (32 * n) :=
        emitBlock_all fun b hb => by
          obtain ⟨k, hk, hbe⟩ := mem_blockAt hb
          rw [hbe]
          exact hz _ (by omega)
      have hval : utf8Valid (emitBlock (blockAt d.mem (32 * n))) = true := by
        rw [hemit]
        apply utf8Valid_ascii
        intro b hb
        obtain ⟨k, hk, hbe⟩ := mem_blockAt hb
        rw [hbe]
        exact hascii _ (by omega)
      rw [if_pos hval, if_neg hnot, Nat.mod_eq_of_lt (by omega : 32 * n + 32 < 65536),
        show 32 * n + 32 = 32 * (n + 1) by ring,
        ih (n + 1) { mem := d.mem, fails := e.fails, tx := e.tx + 2 } rfl hfa
          (by omega) (by omega) (by omega),
        Option.map_some']
      have hl : emitBlock (blockAt d.mem (32 * n)) ++
          (List.range (L + 1 - 32 * (n + 1))).map (fun k => d.mem (32 * (n + 1) + k)) =
          (List.range (L + 1 - 32 * n)).map fun k => d.mem (32 * n + k) := by
        rw [hemit, blockAt, show L + 1 - 32 * n = 32 + (L + 1 - 32 * (n + 1)) by omega,
          List.range_add, List.map_append, List.map_map]
        congr 1
        apply List.map_congr_left
        intro x hx
        simp only [Function.comp_apply]
        congr 1
        omega
      simp only [ReplayEnd.prepend]
      rw [hl]

theorem show_logF_none (d : Dev) (hf : ∀ n, d.fails n = false)
    (hmz : ∀ x, x < 8192 → d.mem x ≠ 0) (hascii : ∀ x, x < 8192 → d.mem x ≤ 127) :
    ∀ (fuel n : Nat) (e : Dev), e.mem = d.mem → e.fails = d.fails →
    32 * (n + fuel) ≤ 8192 → show_logF e (32 * n) fuel = none := by
  intro fuel
  induction fuel with
  | zero =>
    intro n e hm hfa h
    rfl
  | succ fuel ih =>
    intro n e hm hfa h
    have hfe : ∀ k, e.fails k = false := fun k => by rw [hfa]; exact hf k
    have hnot : ¬0 ∈ blockAt d.mem (32 * n) := by
      rw [zero_mem_blockAt]
      rintro ⟨k, hk, hzk⟩
      exact hmz _ (by omega) hzk
    have hemit : emitBlock (blockAt d.mem (32 * n)) = blockAt d.mem (32 * n) :=
      emitBlock_all fun b hb => by
        obtain ⟨k, hk, hbe⟩ := mem_blockAt hb
        rw [hbe]
        exact hmz _ (by omega)
    have hval : utf8Valid (emitBlock (blockAt d.mem (32 * n))) = true := by
      rw [hemit]
      apply utf8Valid_ascii
      intro b hb
      obtain ⟨k, hk, hbe⟩ := mem_blockAt hb
      rw [hbe]
      exact hascii _ (by omega)
    rw [show_logF_succ_ok hfe, hm, if_pos hval, if_neg hnot,
      Nat.mod_eq_of_lt (by omega : 32 * n + 32 < 65536),
      show 32 * n + 32 = 32 * (n + 1) by ring,
      ih (n + 1) { mem := d.mem, fails := e.fails, tx := e.tx + 2 } rfl hfa (by omega)]
    rfl

theorem show_logF_done_zero : ∀ (fuel : Nat) (d : Dev) (a : Nat) (out : List Nat), a < 65536 →
    show_logF d a fuel = some (.done out) →
    ∃ k, 0 ∈ blockAt d.mem ((a + 32 * k) % 65536) := by
  intro fuel
  induction fuel with
  | zero =>
    intro d a out ha h
    simp [show_logF] at h
  | succ fuel ih =>
    intro d a out ha h
    rcases hr : read_fram d a with _ | ⟨d2, blk⟩
    · rw [show_logF_read_fail hr] at h
      simp at h
    · rw [show_logF_read_some hr] at h
      obtain ⟨hm2, hfa2, hblk⟩ := read_fram_elim hr
      by_cases hv : utf8Valid (emitBlock blk) = true
      · rw [if_pos hv] at h
        by_cases h0 : 0 ∈ blk
        · refine ⟨0, ?_⟩
          rw [Nat.mul_zero, Nat.add_zero, Nat.mod_eq_of_lt ha, ← hblk]
          exact h0
        · rw [if_neg h0] at h
          rcases ho : show_logF d2 ((a + 32) % 65536) fuel with _ | e
          · rw [ho] at h
            simp at h
          · rw [ho] at h
            simp only [Option.map_some', Option.some.injEq] at h
            cases e with
            | done e1 =>
              obtain ⟨k, hk⟩ := ih d2 ((a + 32) % 65536) e1 (Nat.mod_lt _ (by omega)) ho
              refine ⟨k + 1, ?_⟩
              rw [hm2] at hk
              rw [show a + 32 * (k + 1) = a + 32 + 32 * k by ring, ← Nat.mod_add_mod]
              exact hk
            | panicked e1 =>
              simp [ReplayEnd.prepend] at h
      · rw [if_neg hv] at h
        simp at h

theorem zero_ends : ∀ (n : Nat) (d : Dev), (∀ k, d.fails k = false) → ∀ a, a < 65536 →
    0 ∈ blockAt d.mem ((a + 32 * n) % 65536) → (show_logF d a (n + 1)).isSome = true := by
  intro n
  induction n with
  | zero =>
    intro d hf a ha hb
    rw [Nat.mul_zero, Nat.add_zero, Nat.mod_eq_of_lt ha] at hb
    rw [show_logF_succ_ok hf]
    by_cases hv : utf8Valid (emitBlock (blockAt d.mem a)) = true
    · rw [if_pos hv, if_pos hb]
      rfl
    · rw [if_neg hv]
      rfl
  | succ n ih =>
    intro d hf a ha hb
    rw [show_logF_succ_ok hf]
    by_cases hv : utf8Valid (emitBlock (blockAt d.mem a)) = true
    · rw [if_pos hv]
      by_cases h0 : 0 ∈ blockAt d.mem a
      · rw [if_pos h0]
        rfl
      · rw [if_neg h0]
        have hs := ih { d with tx := d.tx + 2 } hf ((a + 32) % 65536) (Nat.mod_lt _ (by omega))
          (by rw [Nat.mod_add_mod, show a + 32 + 32 * n = a + 32 * (n + 1) by ring]; exact hb)
        rcases ho : show_logF { d with tx := d.tx + 2 } ((a + 32) % 65536) (n + 1) with _ | e
        · rw [ho] at hs
          simp at hs
        · rfl
    · rw [if_neg hv]
      rfl

theorem replay_decode_panic :
    show_log devStraddle 256 = some (.panicked []) ∧
    utf8Valid ((List.range 33).map devStraddle.mem) = true := by
  decide

theorem framChunksF_basic (fuel : Nat) : ∀ (a : Nat) (data : List Nat), data.length ≤ fuel →
    (framChunksF fuel a data).length = (data.length + 29) / 30 ∧
    ((framChunksF fuel a data).map fun p => p.2).flatten = data ∧
    ∀ p ∈ framChunksF fuel a data, p.2.length ≤ 30 := by
  induction fuel with
  | zero =>
    intro a data h
    have hd : data = [] := by
      cases data with
      | nil => rfl
      | cons b r => simp at h
    subst hd
    exact ⟨rfl, rfl, by simp [framChunksF]⟩
  | succ fuel ih =>
    intro a data h
    match data with
    | [] => exact ⟨rfl, rfl, by simp [framChunksF]⟩
    | b :: rest =>
      have hlc : (b :: rest).length = rest.length + 1 := by simp
      have hdroplen : ((b :: rest).drop 30).length = (b :: rest).length - 30 := by simp
      obtain ⟨ihl, ihj, ihb⟩ :=
        ih (a + 30) ((b :: rest).drop 30) (by rw [hdroplen]; omega)
      refine ⟨?_, ?_, ?_⟩
      · rw [framChunksF, List.length_cons, ihl, hdroplen]
        rcases Nat.lt_or_ge 30 (b :: rest).length with hgt | hle
        · rw [show (b :: rest).length + 29 = ((b :: rest).length - 30 + 29) + 30 by omega,
            Nat.add_div_right _ (by omega)]
        · have h1 : ((b :: rest).length + 29) / 30 = 1 :=
            Nat.div_eq_of_lt_le (by omega) (by omega)
          rw [h1, Nat.div_eq_of_lt (by omega : (b :: rest).length - 30 + 29 < 30)]
      · rw [framChunksF, List.map_cons, List.flatten_cons, ihj]
        exact List.take_append_drop 30 (b :: rest)
      · intro p hp
        rw [framChunksF] at hp
        rcases List.mem_cons.mp hp with he | hm
        · rw [he]
          show ((b :: rest).take 30).length ≤ 30
          rw [List.length_take]
          omega
        · exact ihb p hm

theorem framChunksF_get (fuel : Nat) : ∀ (a : Nat) (data : List Nat) (i : Nat)
    (hfuel : data.length ≤ fuel) (hi : i < (framChunksF fuel a data).length),
    ((framChunksF fuel a data).get ⟨i, hi⟩).1 = (a + 30 * i) % 65536 ∧
    (((framChunksF fuel a data).take i).map fun p => p.2.length).sum = 30 * i := by
  induction fuel with
  | zero =>
    intro a data i hfuel hi
    have hd : data = [] := by
      cases data with
      | nil => rfl
      | cons b r => simp at hfuel
    subst hd
    exact absurd hi (by simp [framChunksF])
  | succ fuel ih =>
    intro a data i hfuel hi
    match data with
    | [] => exact absurd hi (by simp [framChunksF])
    | b :: rest =>
      have hdroplen : ((b :: rest).drop 30).length = (b :: rest).length - 30 := by simp
      cases i with
      | zero =>
        constructor
        · rw [List.get_eq_getElem]
          simp [framChunksF]
        · simp
      | succ i =>
        have hi2 : i < (framChunksF fuel (a + 30) ((b :: rest).drop 30)).length := by
          simp only [framChunksF, List.length_cons] at hi
          omega
        obtain ⟨ihg, ihs⟩ := ih (a + 30) ((b :: rest).drop 30) i (by rw [hdroplen]; omega) hi2
        have hlen30 : 30 < (b :: rest).length := by
          by_contra hcon
          push_neg at hcon
          have hde : (b :: rest).drop 30 = [] := List.drop_eq_nil_of_le hcon
          rw [hde] at hi2
          cases fuel <;> simp [framChunksF] at hi2
        constructor
        · have hg : (framChunksF (fuel + 1) a (b :: rest)).get ⟨i + 1, hi⟩ =
              (framChunksF fuel (a + 30) ((b :: rest).drop 30)).get ⟨i, hi2⟩ := by
            rw [List.get_eq_getElem, List.get_eq_getElem]
            simp [framChunksF]
          rw [hg, ihg, show a + 30 + 30 * i = a + 30 * (i + 1) by ring]
        · simp only [framChunksF, List.take_succ_cons, List.map_cons, List.sum_cons]
          rw [ihs]
          have hrest : 29 ≤ rest.length := by
            simp only [List.length_cons] at hlen30
            omega
          rw [List.length_cons, List.length_take, Nat.min_eq_left hrest]
          omega

/-- C1, counterexample: appending the single byte `66` to a fresh window and
replaying does not reproduce `[66]` exactly: the replay loop ends normally
but its output is `[66, 0]`, i.e. the terminator byte is appended to the
text, so replay does not equal `T` byte for byte. -/
theorem c1_counterexample :
    show_log ((write 0 devOnes [66]).dev) 256 = some (.done [66, 0]) ∧
    ([66, 0] : List Nat) ≠ [66] := by
  decide

/-- C1 (amended): for every ASCII text `T` (every byte at most `0x7F`)
containing no zero byte, with `len T < WINDOW_SIZE`, starting from a fresh
window (cursor 0, any prior memory contents, no bus failures), `append T`
succeeds with cursor `len T` and a subsequent replay ends normally with
output `T` followed by exactly the one terminator byte: `T ++ [0]`, not
`T`.  The ASCII restriction is forced by the source replay decoding every
32-byte block slice standalone: a multi-byte character straddling a block
boundary makes `from_utf8(..).unwrap()` panic (see `replay_decode_panic`). -/
theorem c1_amended (T : List Nat) (m0 : Nat → Nat) (hL : T.length < 8192)
    (hz : ∀ b ∈ T, b ≠ 0) (hascii : ∀ b ∈ T, b ≤ 127) :
    ∃ d', write 0 { mem := m0, fails := fun _ => false, tx := 0 } T = .ok T.length d' ∧
      show_log d' 256 = some (.done (T ++ [0])) := by
  have hadv : advanceCursor 0 T.length = T.length := by
    have h := advanceCursor_small (show 0 + T.length ≤ 8192 by omega)
    rw [h, Nat.zero_add]
  obtain ⟨d', hw, hfails, hmem⟩ := write_ok 0 ⟨m0, fun _ => false, 0⟩ T (fun _ => rfl)
    (by have := span_le T.length; omega) (by rw [hadv]; omega)
  refine ⟨d', by rw [hw, hadv], ?_⟩
  have hf' : ∀ n, d'.fails n = false := by
    intro n
    rw [hfails]
  have hfz : ∀ x, x < T.length → d'.mem x = T.getD x 0 := by
    intro x hx
    rw [hmem x, hadv, if_neg (by omega), if_pos (by omega), Nat.sub_zero]
  have hterm : d'.mem T.length = 0 := by
    rw [hmem T.length, hadv, if_pos (by omega)]
  have hz' : ∀ x, x < T.length → d'.mem x ≠ 0 := by
    intro x hx
    rw [hfz x hx, List.getD_eq_getElem _ _ hx]
    exact hz _ (List.getElem_mem _)
  have hascii' : ∀ x, x < T.length → d'.mem x ≤ 127 := by
    intro x hx
    rw [hfz x hx, List.getD_eq_getElem _ _ hx]
    exact hascii _ (List.getElem_mem _)
  have hrep := show_logF_spec d' T.length hf' hz' hterm hascii' 256 0 d' rfl rfl
    (by omega) (by omega) (by omega)
  simp only [Nat.mul_zero, Nat.zero_add, Nat.sub_zero] at hrep
  rw [show_log, hrep]
  congr 2
  apply List.ext_getElem
  · simp
  · intro i h1 h2
    simp only [List.getElem_map, List.getElem_range]
    rcases Nat.lt_or_ge i T.length with hi | hi
    · rw [hfz i hi, List.getD_eq_getElem _ _ hi, List.getElem_append_left hi]
    · have hieq : i = T.length := by
        simp only [List.length_map, List.length_range] at h1
        omega
      subst hieq
      rw [hterm, List.getElem_append_right (Nat.le_refl _)]
      simp

/-- C1 witness: a concrete run of the amended claim at `T = [65, 66]` over a
memory initially holding `1` everywhere. -/
theorem c1_witness :
    ∃ d', write 0 { mem := fun _ => (1 : Nat), fails := fun _ => false, tx := 0 } [65, 66] =
        .ok ([65, 66] : List Nat).length d' ∧
      show_log d' 256 = some (.done ([65, 66] ++ [0])) :=
  c1_amended [65, 66] (fun _ => 1) (by decide) (by decide) (by decide)

/-- C2: the cursor-advance loop uses a strict comparison, so from cursor 8180
an append of 12 bytes leaves the cursor exactly at `WINDOW_SIZE = 8192`
instead of `(8180 + 12) % 8192 = 0`: the mod-window law fails and the value
8192 is observed, confirming the boundary defect the spec flags in §9. -/
theorem c2_boundary_bug :
    advanceCursor 8180 12 = 8192 ∧ advanceCursor 8180 12 ≠ (8180 + 12) % 8192 := by
  decide

/-- C3: for any payload written via the chunked writer at base offset `B`
(with `B + len` inside the 16-bit address space), the number of chunks
issued is `ceil(len / 30)`, the i-th chunk's destination offset is `B` plus
the sum of the lengths of all previous chunks, every chunk is at most 30
bytes, and the chunks concatenated in issue order reconstruct the payload. -/
theorem c3_chunking (B : Nat) (data : List Nat) (hB : B + data.length ≤ 65535) :
    (framChunks B data).length = (data.length + 29) / 30 ∧
    (∀ i, (hi : i < (framChunks B data).length) →
      ((framChunks B data).get ⟨i, hi⟩).1 =
        B + (((framChunks B data).take i).map fun p => p.2.length).sum) ∧
    (∀ p ∈ framChunks B data, p.2.length ≤ 30) ∧
    ((framChunks B data).map fun p => p.2).flatten = data := by
  obtain ⟨hlen, hjoin, hbound⟩ := framChunksF_basic data.length B data (Nat.le_refl _)
  refine ⟨hlen, ?_, hbound, hjoin⟩
  intro i hi
  obtain ⟨hg, hsum⟩ := framChunksF_get data.length B data i (Nat.le_refl _) hi
  show ((framChunksF data.length B data).get ⟨i, hi⟩).1 =
    B + (((framChunksF data.length B data).take i).map fun p => p.2.length).sum
  rw [hg, hsum]
  apply Nat.mod_eq_of_lt
  have hcount : i < (data.length + 29) / 30 := by
    rw [← hlen]
    exact hi
  have h30 : span data.length = 30 * ((data.length + 29) / 30) := rfl
  have hsp := span_le data.length
  omega

/-- C3 witness: a concrete 31-byte payload at base offset 5 splits into a
30-byte chunk at 5 and a 1-byte chunk at 35. -/
theorem c3_witness :
    (framChunks 5 (List.replicate 31 7)).length = ((List.replicate 31 7 : List Nat).length + 29) / 30 ∧
    (∀ i, (hi : i < (framChunks 5 (List.replicate 31 7)).length) →
      ((framChunks 5 (List.replicate 31 7)).get ⟨i, hi⟩).1 =
        5 + (((framChunks 5 (List.replicate 31 7)).take i).map fun p => p.2.length).sum) ∧
    (∀ p ∈ framChunks 5 (List.replicate 31 7), p.2.length ≤ 30) ∧
    ((framChunks 5 (List.replicate 31 7)).map fun p => p.2).flatten = List.replicate 31 7 :=
  c3_chunking 5 (List.replicate 31 7) (by decide)

/-- C4: the fault-capture hook does NOT swallow store-write failures: the
`.unwrap()` inside `fram_print` panics when the underlying store write
fails, so a handler invocation against a failing bus raises a nested panic
and never reaches the halt loop (first conjunct); only when every store
write succeeds does the handler halt (second conjunct). -/
theorem c4_unwrap_in_handler :
    (fram_panic_handler 0 devAllFail [80] [81]).isHalted = false ∧
    (fram_panic_handler 0 devOnes [80] [81]).isHalted = true := by
  decide

/-- C5, counterexample: with a bus that fails every transaction, appending
`[65]` at cursor 0 panics (no error is returned to the caller) and the
cursor is left at 0 rather than advanced by 1. -/
theorem c5_counterexample :
    (write 0 devAllFail [65]).isPanicked = true ∧ (write 0 devAllFail [65]).cur = 0 := by
  decide

/-- C5 (amended): when a store write fails during append, the append panics
via `.unwrap()` instead of returning the error; if the payload write fails
the cursor has not been advanced, and if the payload write succeeds but the
terminator write fails the cursor has already been advanced. -/
theorem c5_amended (c : Nat) (d : Dev) (t : List Nat) :
    ((write_fram d c t).2 = false → write c d t = .panicked c (write_fram d c t).1) ∧
    ((write_fram d c t).2 = true →
      (write_fram (write_fram d c t).1 (advanceCursor c t.length) [0]).2 = false →
      write c d t = .panicked (advanceCursor c t.length)
        (write_fram (write_fram d c t).1 (advanceCursor c t.length) [0]).1) := by
  constructor
  · intro h
    simp [write, h]
  · intro h1 h2
    simp [write, h1, h2]

/-- C5 witness: the amended claim at cursor 0, the all-failing bus and text
`[65]`: the failed payload write makes `write` panic with the cursor
unchanged. -/
theorem c5_witness :
    write 0 devAllFail [65] = .panicked 0 (write_fram devAllFail 0 [65]).1 :=
  (c5_amended 0 devAllFail [65]).1 (by decide)

/-- C6, counterexample: replaying a device whose log is the single byte `65`
terminated at address 1 emits `[65, 0]`: the terminator byte IS part of the
emitted output, contradicting that only the bytes strictly before it are
emitted. -/
theorem c6_counterexample :
    show_log devA 256 = some (.done [65, 0]) ∧ ([65, 0] : List Nat) ≠ [65] := by
  decide

/-- C6 (amended): replay reads fixed 32-byte blocks from store offset 0,
scans each block in order and stops at the first zero byte; provided the
bus reads succeed and the bytes before the terminator are ASCII (so every
standalone block slice passes the per-block `from_utf8` check instead of
panicking), it emits every byte up to AND INCLUDING that first terminator
byte: for a device whose first zero lies at address `L < 8192`, the output
is the first `L + 1` bytes of the store. -/
theorem c6_amended (d : Dev) (L : Nat) (hf : ∀ n, d.fails n = false)
    (hz : ∀ x, x < L → d.mem x ≠ 0) (h0 : d.mem L = 0) (hL : L < 8192)
    (hascii : ∀ x, x < L → d.mem x ≤ 127) :
    show_log d 256 = some (.done ((List.range (L + 1)).map d.mem)) := by
  have h := show_logF_spec d L hf hz h0 hascii 256 0 d rfl rfl (by omega) (by omega) (by omega)
  simp only [Nat.mul_zero, Nat.zero_add, Nat.sub_zero] at h
  rw [show_log]
  exact h

/-- C6 witness: the amended claim on the device `devAA` holding a two-byte
ASCII log whose first zero byte is at address 2. -/
theorem c6_witness : show_log devAA 256 = some (.done ((List.range (2 + 1)).map devAA.mem)) :=
  c6_amended devAA 2 (fun _ => rfl) (by decide) (by decide) (by decide) (by decide)

/-- C7, counterexample: writing the 1-byte payload `[5]` at offset 0 changes
the store at address 1, which lies outside `[0, 0 + 1)`: the transaction
always transfers a full zero-padded 30-byte buffer, so the write is not
confined to `[offset, offset + len)`. -/
theorem c7_counterexample :
    (write_fram devOnes 0 [5]).1.mem 1 ≠ devOnes.mem 1 ∧ ([5] : List Nat).length = 1 := by
  decide

/-- C7 (amended): a chunked write of `data` at offset `a` mutates the store
only within `[a, a + 30 * ceil(len / 30))` (the payload range rounded up to
whole zero-padded 30-byte chunks); every location strictly below `a` or at
or above `a + span len` is unchanged. -/
theorem c7_amended (d : Dev) (a : Nat) (data : List Nat) (hf : ∀ n, d.fails n = false)
    (ha : a + span data.length ≤ 65536) (x : Nat)
    (hx : x < a ∨ a + span data.length ≤ x) :
    (write_fram d a data).1.mem x = d.mem x := by
  obtain ⟨-, -, hmem⟩ := write_fram_spec d a data hf ha
  have hsp := le_span data.length
  rw [hmem x, if_neg (by omega), if_neg (by omega)]

/-- C7 witness: address 30 (= `span 1`) is untouched by the 1-byte write at
offset 0. -/
theorem c7_witness : (write_fram devOnes 0 [5]).1.mem 30 = devOnes.mem 30 :=
  c7_amended devOnes 0 [5] (fun _ => rfl) (by decide) 30 (Or.inr (by decide))

/-- C8, counterexample: after appending `[65]` at cursor 0 the new cursor is
1 and a terminator sits at address 1, but address 2 also holds a zero byte
(chunk padding), so the logical window does not contain exactly one
terminator byte. -/
theorem c8_counterexample :
    (write 0 devOnes [65]).dev.mem 1 = 0 ∧ (write 0 devOnes [65]).dev.mem 2 = 0 ∧
    (write 0 devOnes [65]).cur = 1 := by
  decide

/-- C8 (amended): after a successful append of a nonempty text that stays
inside the window, a terminator byte (0) is written at the new cursor
position immediately after the record, and the previous terminator position
(the old cursor) is overwritten with the record's first byte; uniqueness of
the zero byte in the window does not hold (padding writes further zeros). -/
theorem c8_amended (c : Nat) (d : Dev) (t : List Nat) (hf : ∀ n, d.fails n = false)
    (hne : t ≠ []) (hlt : c + t.length < 8192) :
    ∃ d', write c d t = .ok (c + t.length) d' ∧ d'.mem (c + t.length) = 0 ∧
      d'.mem c = t.getD 0 0 := by
  have hadv : advanceCursor c t.length = c + t.length := advanceCursor_small (by omega)
  obtain ⟨d', hw, -, hmem⟩ := write_ok c d t hf (by have := span_le t.length; omega)
    (by rw [hadv]; omega)
  have htlen : 1 ≤ t.length := by
    cases t with
    | nil => exact absurd rfl hne
    | cons a l => simp
  refine ⟨d', by rw [hw, hadv], ?_, ?_⟩
  · rw [hmem, hadv, if_pos (by omega)]
  · rw [hmem, hadv, if_neg (by omega), if_pos (by omega), Nat.sub_self]

/-- C8 witness: the amended claim at cursor 3 with the two-byte text
`[65, 66]`. -/
theorem c8_witness :
    ∃ d', write 3 devOnes [65, 66] = .ok (3 + ([65, 66] : List Nat).length) d' ∧
      d'.mem (3 + ([65, 66] : List Nat).length) = 0 ∧
      d'.mem 3 = ([65, 66] : List Nat).getD 0 0 :=
  c8_amended 3 devOnes [65, 66] (fun _ => rfl) (by decide) (by decide)

/-- C9: with the cursor at 8180 and a 20-byte text, the append sets the
cursor to `8180 + 20 - 8192 = 8` while the 20 payload bytes land at store
offsets `8180..8200`, past the window boundary, without being split or
wrapped: no payload byte is written at the window start (addresses below 8
are untouched, as is everything between the terminator span and 8180). -/
theorem c9_nonwrapping_write (T : List Nat) (d : Dev) (hT : T.length = 20)
    (hf : ∀ n, d.fails n = false) :
    ∃ d', write 8180 d T = .ok 8 d' ∧
      (∀ k, k < 20 → d'.mem (8180 + k) = T.getD k 0) ∧
      (∀ x, x < 8 → d'.mem x = d.mem x) ∧
      (∀ x, 38 ≤ x → x < 8180 → d'.mem x = d.mem x) := by
  have hadv : advanceCursor 8180 T.length = 8 := by
    rw [hT]
    decide
  have hspan : span T.length = 30 := by
    rw [hT]
    decide
  obtain ⟨d', hw, -, hmem⟩ := write_ok 8180 d T hf (by rw [hspan]; omega) (by rw [hadv]; omega)
  refine ⟨d', by rw [hw, hadv], ?_, ?_, ?_⟩
  · intro k hk
    rw [hmem, hadv, if_neg (by omega), if_pos (by constructor <;> omega),
      show 8180 + k - 8180 = k by omega]
  · intro x hx
    rw [hmem, hadv, if_neg (by omega), if_neg (by omega), if_neg (by omega)]
  · intro x h1 h2
    rw [hmem, hadv, if_neg (by omega), if_neg (by omega), if_neg (by omega)]

/-- C9 witness: the boundary append with the concrete 20-byte text made of
byte 65, on a never-failing device holding 1 everywhere. -/
theorem c9_witness :
    ∃ d', write 8180 devOnes (List.replicate 20 65) = .ok 8 d' ∧
      (∀ k, k < 20 → d'.mem (8180 + k) = (List.replicate 20 65).getD k 0) ∧
      (∀ x, x < 8 → d'.mem x = devOnes.mem x) ∧
      (∀ x, 38 ≤ x → x < 8180 → d'.mem x = devOnes.mem x) :=
  c9_nonwrapping_write (List.replicate 20 65) devOnes (by decide) (fun _ => rfl)

/-- C10, counterexample: on the device `devC3`, whose memory holds the UTF-8
lead byte `0xC3` at every address, replay ends at the very first block —
the `from_utf8(..).unwrap()` panics on the undecodable slice — although no
zero byte occurs in any block it reads; so "terminates iff some zero byte
occurs in the blocks read" is false of the program. -/
theorem c10_counterexample :
    (∃ fuel, (show_log devC3 fuel).isSome = true) ∧
    ¬∃ n, 0 ∈ blockAt devC3.mem ((32 * n) % 65536) := by
  constructor
  · exact ⟨1, by decide⟩
  · rintro ⟨n, hn⟩
    obtain ⟨k, hk, he⟩ := mem_blockAt hn
    have h195 : (0 : Nat) = 195 := he
    omega

/-- C10 (amended): the replay loop exits normally (prints and stops) only if
some zero byte occurs in the 32-byte blocks it reads (addresses `32 * n`,
wrapping as u16); conversely, with a never-failing bus, a zero byte in some
read block forces replay to end within that many blocks — normally or by an
earlier decode panic; and the scan is not bounded by the window: with a
never-failing bus and a window of nonzero ASCII bytes (no panic, no
terminator), reading all 256 in-window blocks has not stopped the loop — it
keeps reading past the window boundary. -/
theorem c10_amended (d : Dev) :
    (∀ fuel out, show_log d fuel = some (.done out) →
      ∃ n, 0 ∈ blockAt d.mem ((32 * n) % 65536)) ∧
    ((∀ k, d.fails k = false) →
      ∀ n, 0 ∈ blockAt d.mem ((32 * n) % 65536) → ∃ fuel, (show_log d fuel).isSome = true) ∧
    ((∀ k, d.fails k = false) → (∀ x, x < 8192 → d.mem x ≠ 0 ∧ d.mem x ≤ 127) →
      show_log d 256 = none) := by
  refine ⟨?_, ?_, ?_⟩
  · intro fuel out h
    obtain ⟨k, hk⟩ := show_logF_done_zero fuel d 0 out (by omega) h
    exact ⟨k, by simpa using hk⟩
  · intro hf n hn
    exact ⟨n + 1, zero_ends n d hf 0 (by omega) (by simpa using hn)⟩
  · intro hf hwin
    have h := show_logF_none d hf (fun x hx => (hwin x hx).1) (fun x hx => (hwin x hx).2)
      256 0 d rfl rfl (by omega)
    simp only [Nat.mul_zero] at h
    rw [show_log]
    exact h

/-- C10 witness: `devLate` stores nonzero ASCII bytes across the whole
window with its first zero at address 9000: replay does end (a zero exists
in block 282), yet after the 256 blocks covering the whole window the loop
is still running. -/
theorem c10_witness :
    (∃ fuel, (show_log devLate fuel).isSome = true) ∧ show_log devLate 256 = none :=
  ⟨(c10_amended devLate).2.1 (fun _ => rfl) 282 (by decide),
    (c10_amended devLate).2.2 (fun _ => rfl) fun x hx => by
      constructor
      · show (if x < 9000 then 1 else 0 : Nat) ≠ 0
        rw [if_pos (by omega)]
        omega
      · show (if x < 9000 then 1 else 0 : Nat) ≤ 127
        rw [if_pos (by omega)]
        omega⟩

end Fram
